import Mathlib

/-
Verification of the MultiBandit repository core in a shallow embedding.
Machine floats are modelled by exact rationals; library real functions
(sqrt, log, the Student t quantile) by real numbers and abstract
function parameters. Randomness is modelled by explicit oracle
arguments supplying the values the Python random generators would
return.
-/

set_option maxHeartbeats 1000000

/-
Python max(iterable), max(range(n), key=f) and numpy argmax all return
the FIRST index attaining the maximum. argmaxFirst captures exactly
that semantics: for x :: rest the answer is the answer for rest,
shifted by one, when some later value strictly exceeds x, and 0
otherwise.
-/
def argmaxFirst {α : Type} [LinearOrder α] : List α → ℕ
  | [] => 0
  | [_] => 0
  | x :: y :: xs =>
    let j := argmaxFirst (y :: xs)
    if x < (y :: xs).getD j x then j + 1 else 0

lemma argmaxFirst_lt {α : Type} [LinearOrder α] (l : List α) (h : l ≠ []) :
    argmaxFirst l < l.length := by
  induction l with
  | nil => simp at h
  | cons x xs ih =>
    cases xs with
    | nil => simp [argmaxFirst]
    | cons y ys =>
      have hlt : argmaxFirst (y :: ys) < (y :: ys).length := ih (by simp)
      have hunf : argmaxFirst (x :: y :: ys)
          = if x < (y :: ys).getD (argmaxFirst (y :: ys)) x
            then argmaxFirst (y :: ys) + 1 else 0 := rfl
      rw [hunf]
      split
      · exact Nat.succ_lt_succ hlt
      · simp

lemma argmaxFirst_le {α : Type} [LinearOrder α] (l : List α) (d : α) :
    ∀ j, j < l.length → l.getD j d ≤ l.getD (argmaxFirst l) d := by
  induction l with
  | nil => intro j hj; simp at hj
  | cons x xs ih =>
    cases xs with
    | nil =>
      intro j hj
      simp only [List.length_cons, List.length_nil] at hj
      interval_cases j
      simp [argmaxFirst]
    | cons y ys =>
      have hjlt := argmaxFirst_lt (y :: ys) (by simp)
      have hdef : (y :: ys).getD (argmaxFirst (y :: ys)) x
          = (y :: ys).getD (argmaxFirst (y :: ys)) d := by
        rw [List.getD_eq_getElem _ _ hjlt, List.getD_eq_getElem _ _ hjlt]
      have hunf : argmaxFirst (x :: y :: ys)
          = if x < (y :: ys).getD (argmaxFirst (y :: ys)) x
            then argmaxFirst (y :: ys) + 1 else 0 := rfl
      intro j hj
      rw [hunf]
      by_cases hc : x < (y :: ys).getD (argmaxFirst (y :: ys)) x
      · rw [if_pos hc]
        rw [hdef] at hc
        match j with
        | 0 => simpa using le_of_lt hc
        | Nat.succ k =>
          simp only [List.getD_cons_succ]
          exact ih k (by simpa using hj)
      · rw [if_neg hc]
        rw [hdef] at hc
        push_neg at hc
        match j with
        | 0 => simp
        | Nat.succ k =>
          simp only [List.getD_cons_succ, List.getD_cons_zero]
          exact le_trans (ih k (by simpa using hj)) hc

lemma argmaxFirst_least {α : Type} [LinearOrder α] (l : List α) (d : α) :
    ∀ j, j < argmaxFirst l → l.getD j d < l.getD (argmaxFirst l) d := by
  induction l with
  | nil => intro j hj; simp [argmaxFirst] at hj
  | cons x xs ih =>
    cases xs with
    | nil => intro j hj; simp [argmaxFirst] at hj
    | cons y ys =>
      have hjlt := argmaxFirst_lt (y :: ys) (by simp)
      have hdef : (y :: ys).getD (argmaxFirst (y :: ys)) x
          = (y :: ys).getD (argmaxFirst (y :: ys)) d := by
        rw [List.getD_eq_getElem _ _ hjlt, List.getD_eq_getElem _ _ hjlt]
      have hunf : argmaxFirst (x :: y :: ys)
          = if x < (y :: ys).getD (argmaxFirst (y :: ys)) x
            then argmaxFirst (y :: ys) + 1 else 0 := rfl
      intro j hj
      rw [hunf] at hj ⊢
      by_cases hc : x < (y :: ys).getD (argmaxFirst (y :: ys)) x
      · rw [if_pos hc] at hj ⊢
        rw [hdef] at hc
        match j with
        | 0 => simpa using hc
        | Nat.succ k =>
          simp only [List.getD_cons_succ]
          exact ih k (by omega)
      · rw [if_neg hc] at hj
        omega

/-
Embedding of class Bandit from src/multibandit/bandit.py.
true_mean is fixed at creation; estimated_mean starts at 0.0 and
num_pulls at 0; update increments num_pulls and applies the
incremental-average recurrence
  estimated_mean += (reward - estimated_mean) / num_pulls.
-/
structure Bandit where
  true_mean : ℚ
  estimated_mean : ℚ
  num_pulls : ℕ
deriving DecidableEq

instance : Inhabited Bandit := ⟨⟨0, 0, 0⟩⟩

def Bandit.init (tm : ℚ) : Bandit := ⟨tm, 0, 0⟩

def Bandit.update (b : Bandit) (reward : ℚ) : Bandit :=
  let n := b.num_pulls + 1
  { b with
    num_pulls := n,
    estimated_mean := b.estimated_mean + (reward - b.estimated_mean) / (n : ℚ) }

/- Feeding a whole list of rewards, one update per element. -/
def Bandit.updates (b : Bandit) (rs : List ℚ) : Bandit :=
  rs.foldl Bandit.update b

/- Bandit.pull from the source: reward 1 when the uniform draw is below
the true mean, else 0. The uniform draw is the oracle argument u. -/
def Bandit.pull (b : Bandit) (u : ℚ) : ℚ :=
  if u < b.true_mean then 1 else 0

lemma Bandit.update_true_mean (b : Bandit) (r : ℚ) :
    (b.update r).true_mean = b.true_mean := rfl

lemma Bandit.update_pulls (b : Bandit) (r : ℚ) :
    (b.update r).num_pulls = b.num_pulls + 1 := rfl

/- One incremental update adds exactly the reward to the running mass
   estimated_mean * num_pulls (in exact arithmetic). -/
lemma Bandit.update_mass (b : Bandit) (r : ℚ) :
    (b.update r).estimated_mean * ((b.num_pulls + 1 : ℕ) : ℚ)
      = b.estimated_mean * (b.num_pulls : ℚ) + r := by
  have hne : ((b.num_pulls + 1 : ℕ) : ℚ) ≠ 0 := by
    push_cast
    positivity
  simp only [Bandit.update]
  push_cast at hne ⊢
  field_simp
  ring

lemma Bandit.updates_pulls (rs : List ℚ) : ∀ b : Bandit,
    (b.updates rs).num_pulls = b.num_pulls + rs.length := by
  induction rs with
  | nil => intro b; simp [Bandit.updates]
  | cons r rs ih =>
    intro b
    have : (b.updates (r :: rs)) = ((b.update r).updates rs) := rfl
    rw [this, ih (b.update r), Bandit.update_pulls]
    simp
    omega

lemma Bandit.updates_mass (rs : List ℚ) : ∀ b : Bandit,
    (b.updates rs).estimated_mean * ((b.num_pulls + rs.length : ℕ) : ℚ)
      = b.estimated_mean * (b.num_pulls : ℚ) + rs.sum := by
  induction rs with
  | nil => intro b; simp [Bandit.updates]
  | cons r rs ih =>
    intro b
    have hrw : (b.updates (r :: rs)) = ((b.update r).updates rs) := rfl
    have h1 := ih (b.update r)
    rw [Bandit.update_pulls, Bandit.update_mass] at h1
    rw [hrw]
    have hlen : b.num_pulls + (r :: rs).length = b.num_pulls + 1 + rs.length := by
      simp
      omega
    rw [hlen, h1]
    simp
    ring

lemma Bandit.updates_mean (tm : ℚ) (rs : List ℚ) (h : rs ≠ []) :
    ((Bandit.init tm).updates rs).estimated_mean = rs.sum / (rs.length : ℚ) := by
  have hm := Bandit.updates_mass rs (Bandit.init tm)
  have hm2 : ((Bandit.init tm).updates rs).estimated_mean * (rs.length : ℚ)
      = rs.sum := by
    simpa [Bandit.init] using hm
  have hlen : (rs.length : ℚ) ≠ 0 := by
    have : 0 < rs.length := List.length_pos.mpr h
    positivity
  rw [eq_div_iff hlen]
  exact hm2

/--
C1: for every arm-statistics object and every nonempty sequence of
rewards fed via update, the resulting estimated_mean equals the exact
arithmetic mean of the rewards (hence is within 1e-9 of it), the
result is independent of the order of the updates, the estimated mean
before any update is 0, and after the updates num_pulls equals the
number of updates performed.
-/
theorem C1_arm_statistics_incremental_mean (tm : ℚ) (rs rs2 : List ℚ)
    (h : rs ≠ []) (hperm : rs.Perm rs2) :
    |((Bandit.init tm).updates rs).estimated_mean - rs.sum / (rs.length : ℚ)|
        ≤ 1 / 1000000000
    ∧ ((Bandit.init tm).updates rs).estimated_mean = rs.sum / (rs.length : ℚ)
    ∧ (Bandit.init tm).estimated_mean = 0
    ∧ ((Bandit.init tm).updates rs).num_pulls = rs.length
    ∧ ((Bandit.init tm).updates rs).estimated_mean
        = ((Bandit.init tm).updates rs2).estimated_mean := by
  have h2 : rs2 ≠ [] := by
    intro hnil
    rw [hnil] at hperm
    exact h (List.Perm.eq_nil hperm)
  have e1 := Bandit.updates_mean tm rs h
  have e2 := Bandit.updates_mean tm rs2 h2
  refine ⟨?_, e1, rfl, ?_, ?_⟩
  · rw [e1]
    simp
  · have := Bandit.updates_pulls rs (Bandit.init tm)
    simpa [Bandit.init] using this
  · rw [e1, e2, hperm.sum_eq, hperm.length_eq]

/-- Witness for C1 at the concrete reward lists [3, 5] and [5, 3]. -/
theorem C1_witness :
    ((Bandit.init 0).updates [3, 5]).estimated_mean
        = ([3, 5] : List ℚ).sum / (([3, 5] : List ℚ).length : ℚ)
    ∧ ((Bandit.init 0).updates [3, 5]).num_pulls = 2
    ∧ ((Bandit.init 0).updates [3, 5]).estimated_mean
        = ((Bandit.init 0).updates [5, 3]).estimated_mean := by
  have h := C1_arm_statistics_incremental_mean 0 [3, 5] [5, 3]
      (by decide) (by decide)
  exact ⟨h.2.1, h.2.2.2.1, h.2.2.2.2⟩

/-
Embedding of class MultiBandit from src/multibandit/bandit.py.
One Draw supplies the values the random generator returns during one
iteration: explore is the random.random() call in select_arm, idx the
random.randint(0, K-1) outcome (modelled modulo K), pull the
random.random() call inside Bandit.pull.
-/
structure StepRecord where
  iteration : ℕ
  arm : ℕ
  reward : ℚ
  cumulative_reward : ℚ
  avg_reward : ℚ
  arm_estimates : List ℚ
  arm_pulls : List ℕ
deriving DecidableEq

structure Draw where
  explore : ℚ
  idx : ℕ
  pull : ℚ
deriving DecidableEq

structure Engine where
  bandits : List Bandit
  epsilon : ℚ
  total_reward : ℚ
  num_iterations : ℕ
  history : List StepRecord
deriving DecidableEq

/- MultiBandit.__init__ stores the bandits list and epsilon and zeroes
the run counters. The source performs no validation at all here. -/
def Engine.init (bandits : List Bandit) (epsilon : ℚ) : Engine :=
  ⟨bandits, epsilon, 0, 0, []⟩

/- select_arm: explore with probability epsilon, else exploit with
max(range(len(bandits)), key=estimated_mean), which is the first index
attaining the maximal estimate. -/
def Engine.select_arm (s : Engine) (d : Draw) : ℕ :=
  if d.explore < s.epsilon then d.idx % s.bandits.length
  else argmaxFirst (s.bandits.map Bandit.estimated_mean)

def Engine.run_iteration (s : Engine) (d : Draw) : Engine :=
  let arm := s.select_arm d
  let reward := (s.bandits.getD arm default).pull d.pull
  let bandits2 := s.bandits.set arm ((s.bandits.getD arm default).update reward)
  let total := s.total_reward + reward
  let iters := s.num_iterations + 1
  let rec0 : StepRecord :=
    ⟨iters, arm, reward, total, total / (iters : ℚ),
      bandits2.map Bandit.estimated_mean, bandits2.map Bandit.num_pulls⟩
  ⟨bandits2, s.epsilon, total, iters, s.history ++ [rec0]⟩

def Engine.runSteps (s : Engine) (ds : List Draw) : Engine :=
  ds.foldl Engine.run_iteration s

/- MultiBandit.run: the Python loop for _ in range(num_iterations)
followed by return self.history. range(n) is empty when n ≤ 0, so the
source silently performs no iterations there and raises nothing. -/
def Engine.run (s : Engine) (num_iterations : ℤ) (ds : ℕ → Draw) :
    Engine × List StepRecord :=
  let s2 := s.runSteps ((List.range num_iterations.toNat).map ds)
  (s2, s2.history)

def Engine.get_best_arm (s : Engine) : ℕ :=
  argmaxFirst (s.bandits.map Bandit.estimated_mean)

/- The three-arm fixture used by the test suite in
src/tests/test_multibandit.py (true means 0.3, 0.5, 0.2). -/
def testBandits : List Bandit :=
  [Bandit.init (3/10), Bandit.init (1/2), Bandit.init (1/5)]

lemma Engine.run_iteration_counters (s : Engine) (d : Draw) :
    (s.run_iteration d).num_iterations = s.num_iterations + 1
    ∧ (s.run_iteration d).history.length = s.history.length + 1 := by
  constructor <;> simp [Engine.run_iteration]

lemma Engine.runSteps_iterations (ds : List Draw) : ∀ s : Engine,
    (s.runSteps ds).num_iterations = s.num_iterations + ds.length := by
  induction ds with
  | nil => intro s; simp [Engine.runSteps]
  | cons d ds ih =>
    intro s
    have hrw : s.runSteps (d :: ds) = (s.run_iteration d).runSteps ds := rfl
    rw [hrw, ih, (Engine.run_iteration_counters s d).1]
    simp
    omega

lemma Engine.runSteps_history (ds : List Draw) : ∀ s : Engine,
    (s.runSteps ds).history.length = s.history.length + ds.length := by
  induction ds with
  | nil => intro s; simp [Engine.runSteps]
  | cons d ds ih =>
    intro s
    have hrw : s.runSteps (d :: ds) = (s.run_iteration d).runSteps ds := rfl
    rw [hrw, ih, (Engine.run_iteration_counters s d).2]
    simp
    omega

/--
C3: the source of MultiBandit.run performs no validation of
num_iterations: for num_iterations ≤ 0 it silently runs zero
iterations and returns the unchanged (empty) history instead of
raising ValueError as the claim and test_run_invalid_iterations
require; for num_iterations ≥ 1 it does run exactly that many
choose-sample-update-record iterations and returns the history.
-/
theorem C3_run_has_no_validation (ds : ℕ → Draw) (n : ℤ) :
    (n ≤ 0 →
      Engine.run (Engine.init testBandits (1/10)) n ds
        = (Engine.init testBandits (1/10), []))
    ∧ (1 ≤ n →
      ((Engine.init testBandits (1/10)).run n ds).1.num_iterations = n.toNat
      ∧ ((Engine.init testBandits (1/10)).run n ds).2.length = n.toNat
      ∧ ((Engine.init testBandits (1/10)).run n ds).2
          = ((Engine.init testBandits (1/10)).run n ds).1.history) := by
  constructor
  · intro hn
    have h0 : n.toNat = 0 := Int.toNat_of_nonpos hn
    simp [Engine.run, h0, Engine.runSteps, Engine.init]
  · intro _
    refine ⟨?_, ?_, rfl⟩
    · have := Engine.runSteps_iterations ((List.range n.toNat).map ds)
        (Engine.init testBandits (1/10))
      simpa [Engine.run, Engine.init] using this
    · have := Engine.runSteps_history ((List.range n.toNat).map ds)
        (Engine.init testBandits (1/10))
      simpa [Engine.run, Engine.init] using this

/-- Witness for C3 at num_iterations 0 and 3 on the test fixture. -/
theorem C3_witness :
    Engine.run (Engine.init testBandits (1/10)) 0 (fun _ => ⟨0, 0, 0⟩)
        = (Engine.init testBandits (1/10), [])
    ∧ ((Engine.init testBandits (1/10)).run 3 (fun _ => ⟨0, 0, 0⟩)).1.num_iterations
        = (3 : ℤ).toNat := by
  exact ⟨(C3_run_has_no_validation (fun _ => ⟨0, 0, 0⟩) 0).1 (by decide),
    ((C3_run_has_no_validation (fun _ => ⟨0, 0, 0⟩) 3).2 (by decide)).1⟩

lemma getD_map {α β : Type} (f : α → β) (l : List α) (i : ℕ) (d : β)
    (d2 : α) (h : i < l.length) : (l.map f).getD i d = f (l.getD i d2) := by
  rw [List.getD_eq_getElem _ _ (by simpa using h), List.getD_eq_getElem _ _ h,
    List.getElem_map]

/- Replacing one list element changes a mapped sum by exactly the
difference between the new and old images. -/
lemma sum_map_set {α β : Type} [AddCommMonoid β] (f : α → β) (l : List α)
    (i : ℕ) (a dflt : α) (h : i < l.length) :
    ((l.set i a).map f).sum + f (l.getD i dflt) = (l.map f).sum + f a := by
  induction l generalizing i with
  | nil => simp at h
  | cons x xs ih =>
    cases i with
    | zero =>
      simp only [List.set_cons_zero, List.map_cons, List.sum_cons,
        List.getD_cons_zero]
      abel
    | succ i =>
      simp only [List.set_cons_succ, List.map_cons, List.sum_cons,
        List.getD_cons_succ]
      rw [add_assoc, ih i (by simpa using h), ← add_assoc]

/- Run-level totals the C7 invariant speaks about. -/
def Engine.sumMass (s : Engine) : ℚ :=
  (s.bandits.map (fun b => b.estimated_mean * (b.num_pulls : ℚ))).sum

def Engine.sumPulls (s : Engine) : ℕ :=
  (s.bandits.map Bandit.num_pulls).sum

lemma Engine.select_arm_lt (s : Engine) (d : Draw) (hne : s.bandits ≠ []) :
    s.select_arm d < s.bandits.length := by
  have hlen : 0 < s.bandits.length := List.length_pos.mpr hne
  unfold Engine.select_arm
  split
  · exact Nat.mod_lt _ hlen
  · have hmne : s.bandits.map Bandit.estimated_mean ≠ [] := by
      intro hmap
      exact hne (List.map_eq_nil_iff.mp hmap)
    have := argmaxFirst_lt _ hmne
    simpa using this

lemma Engine.run_iteration_invariant (s : Engine) (d : Draw)
    (hne : s.bandits ≠ [])
    (h1 : s.total_reward = s.sumMass)
    (h2 : s.num_iterations = s.sumPulls) :
    (s.run_iteration d).bandits ≠ []
    ∧ (s.run_iteration d).total_reward = (s.run_iteration d).sumMass
    ∧ (s.run_iteration d).num_iterations = (s.run_iteration d).sumPulls := by
  have harm := s.select_arm_lt d hne
  set arm := s.select_arm d with harmdef
  set b0 := s.bandits.getD arm default with hb0
  set rw0 := b0.pull d.pull with hrwd
  have hstep : (b0.update rw0).estimated_mean * ((b0.update rw0).num_pulls : ℚ)
      = b0.estimated_mean * (b0.num_pulls : ℚ) + rw0 := by
    rw [Bandit.update_pulls]
    exact Bandit.update_mass b0 rw0
  have hmass : ((s.bandits.set arm (b0.update rw0)).map
          (fun b => b.estimated_mean * (b.num_pulls : ℚ))).sum
        + b0.estimated_mean * (b0.num_pulls : ℚ)
      = (s.bandits.map (fun b => b.estimated_mean * (b.num_pulls : ℚ))).sum
        + (b0.update rw0).estimated_mean * ((b0.update rw0).num_pulls : ℚ) := by
    have hss := sum_map_set (fun b => b.estimated_mean * (b.num_pulls : ℚ))
        s.bandits arm (b0.update rw0) default harm
    rw [hb0]
    exact hss
  have hpulls : ((s.bandits.set arm (b0.update rw0)).map Bandit.num_pulls).sum
        + b0.num_pulls
      = (s.bandits.map Bandit.num_pulls).sum + (b0.update rw0).num_pulls := by
    have hss := sum_map_set Bandit.num_pulls
        s.bandits arm (b0.update rw0) default harm
    rw [hb0]
    exact hss
  have hbs : (s.run_iteration d).bandits
      = s.bandits.set arm (b0.update rw0) := rfl
  refine ⟨?_, ?_, ?_⟩
  · rw [hbs]
    intro hnil
    have hlen0 := congrArg List.length hnil
    rw [List.length_set] at hlen0
    simp only [List.length_nil] at hlen0
    omega
  · have htot : (s.run_iteration d).total_reward = s.total_reward + rw0 := rfl
    have hsm : (s.run_iteration d).sumMass
        = ((s.bandits.set arm (b0.update rw0)).map
            (fun b => b.estimated_mean * (b.num_pulls : ℚ))).sum := by
      rw [Engine.sumMass, hbs]
    have hdefm : s.sumMass
        = (s.bandits.map (fun b => b.estimated_mean * (b.num_pulls : ℚ))).sum := rfl
    rw [htot, hsm, h1, hdefm]
    linarith [hmass, hstep]
  · have hit : (s.run_iteration d).num_iterations = s.num_iterations + 1 := rfl
    have hsp : (s.run_iteration d).sumPulls
        = ((s.bandits.set arm (b0.update rw0)).map Bandit.num_pulls).sum := by
      rw [Engine.sumPulls, hbs]
    have hupd : (b0.update rw0).num_pulls = b0.num_pulls + 1 :=
      Bandit.update_pulls b0 rw0
    have hdefp : s.sumPulls = (s.bandits.map Bandit.num_pulls).sum := rfl
    rw [hit, hsp, h2, hdefp]
    omega

lemma Engine.runSteps_invariant (ds : List Draw) : ∀ s : Engine,
    s.bandits ≠ [] → s.total_reward = s.sumMass →
    s.num_iterations = s.sumPulls →
    (s.runSteps ds).bandits ≠ []
    ∧ (s.runSteps ds).total_reward = (s.runSteps ds).sumMass
    ∧ (s.runSteps ds).num_iterations = (s.runSteps ds).sumPulls := by
  induction ds with
  | nil => intro s h1 h2 h3; exact ⟨h1, h2, h3⟩
  | cons d ds ih =>
    intro s h1 h2 h3
    have hstep := Engine.run_iteration_invariant s d h1 h2 h3
    have hrw : s.runSteps (d :: ds) = (s.run_iteration d).runSteps ds := rfl
    rw [hrw]
    exact ih _ hstep.1 hstep.2.1 hstep.2.2

/--
C7: starting from a freshly constructed engine (all arm statistics
zero) and applying any number of single-step iterations, total_reward
equals the sum over arms of estimated_mean * pull_count exactly (in
exact rational arithmetic), and the iteration counter equals the sum
over arms of pull_count.
-/
theorem C7_engine_totals_invariant (tms : List ℚ) (eps : ℚ) (ds : List Draw)
    (h : tms ≠ []) :
    ((Engine.init (tms.map Bandit.init) eps).runSteps ds).total_reward
        = ((Engine.init (tms.map Bandit.init) eps).runSteps ds).sumMass
    ∧ ((Engine.init (tms.map Bandit.init) eps).runSteps ds).num_iterations
        = ((Engine.init (tms.map Bandit.init) eps).runSteps ds).sumPulls := by
  have h0 : (Engine.init (tms.map Bandit.init) eps).bandits ≠ [] := by
    simp only [Engine.init]
    intro hmap
    exact h (List.map_eq_nil_iff.mp hmap)
  have h1 : (Engine.init (tms.map Bandit.init) eps).total_reward
      = (Engine.init (tms.map Bandit.init) eps).sumMass := by
    simp only [Engine.init, Engine.sumMass]
    symm
    apply List.sum_eq_zero
    intro x hx
    simp only [List.map_map, List.mem_map, Function.comp] at hx
    obtain ⟨tm, _, rfl⟩ := hx
    simp [Bandit.init]
  have h2 : (Engine.init (tms.map Bandit.init) eps).num_iterations
      = (Engine.init (tms.map Bandit.init) eps).sumPulls := by
    simp only [Engine.init, Engine.sumPulls]
    symm
    apply List.sum_eq_zero
    intro x hx
    simp only [List.map_map, List.mem_map, Function.comp] at hx
    obtain ⟨tm, _, rfl⟩ := hx
    simp [Bandit.init]
  have := Engine.runSteps_invariant ds (Engine.init (tms.map Bandit.init) eps)
      h0 h1 h2
  exact ⟨this.2.1, this.2.2⟩

/-- Witness for C7: one arm with true mean 1/2, one iteration. -/
theorem C7_witness :
    ((Engine.init ([(1 : ℚ)/2].map Bandit.init) (1/10)).runSteps
        [⟨0, 0, 0⟩]).total_reward
      = ((Engine.init ([(1 : ℚ)/2].map Bandit.init) (1/10)).runSteps
        [⟨0, 0, 0⟩]).sumMass
    ∧ ((Engine.init ([(1 : ℚ)/2].map Bandit.init) (1/10)).runSteps
        [⟨0, 0, 0⟩]).num_iterations
      = ((Engine.init ([(1 : ℚ)/2].map Bandit.init) (1/10)).runSteps
        [⟨0, 0, 0⟩]).sumPulls :=
  C7_engine_totals_invariant [1/2] (1/10) [⟨0, 0, 0⟩] (by decide)

/-
Embedding of the legacy script src/Multibandit.py: arms are dicts with
theta, numOfTimes and rewords (an integer count of unit rewards).
-/
structure LArm where
  theta : ℚ
  numOfTimes : ℕ
  rewords : ℕ
deriving DecidableEq

/- The local helper avg of the exploit branch: 0 for an unpulled arm,
else rewords / numOfTimes. -/
def LArm.avg (a : LArm) : ℚ :=
  if a.numOfTimes = 0 then 0 else (a.rewords : ℚ) / (a.numOfTimes : ℚ)

/- math.isclose with its default tolerances rel_tol=1e-9, abs_tol=0.0,
that is abs(a-b) <= max(rel_tol * max(abs(a), abs(b)), abs_tol). Note
the tolerance is RELATIVE, not absolute. -/
def isclose (a b : ℚ) : Bool :=
  decide (|a - b| ≤ max ((1/1000000000) * max |a| |b|) 0)

/- Python max over a nonempty list, as a fold from the head. -/
def listMaxQ (l : List ℚ) : ℚ := l.foldl max (l.headD 0)

/- The candidate list of the exploit branch: indices whose average is
isclose to the maximal average. -/
def Lcandidates (arms : List LArm) : List ℕ :=
  let vals := arms.map LArm.avg
  let maxv := listMaxQ vals
  (List.range arms.length).filter (fun i => isclose (vals.getD i 0) maxv)

/- random.choice(candidates): the uniform draw is modelled by an
oracle natural number taken modulo the number of candidates. -/
def LchooseExploit (arms : List LArm) (r : ℕ) : ℕ :=
  let cs := Lcandidates arms
  cs.getD (r % cs.length) 0

/- The candidate set in the words of the spec sentence behind C4: arms
whose mean is within ABSOLUTE tolerance 1e-9 of the maximum mean.
Stated from the spec for comparison with the source definition. -/
def specCandidatesOf (vals : List ℚ) : List ℕ :=
  let maxv := listMaxQ vals
  (List.range vals.length).filter
    (fun i => decide (|vals.getD i 0 - maxv| ≤ 1/1000000000))

lemma le_foldl_max (l : List ℚ) : ∀ a : ℚ, a ≤ l.foldl max a := by
  induction l with
  | nil => intro a; simp
  | cons x xs ih => intro a; exact le_trans (le_max_left a x) (ih (max a x))

lemma foldl_max_mem (l : List ℚ) :
    ∀ a : ℚ, l.foldl max a = a ∨ l.foldl max a ∈ l := by
  induction l with
  | nil => intro a; left; rfl
  | cons x xs ih =>
    intro a
    rcases ih (max a x) with h | h
    · rcases max_choice a x with hc | hc
      · left; rw [List.foldl_cons, h, hc]
      · right; rw [List.foldl_cons, h, hc]; exact List.mem_cons_self x xs
    · right; rw [List.foldl_cons]; exact List.mem_cons_of_mem x h

lemma mem_le_foldl_max (l : List ℚ) :
    ∀ (a x : ℚ), x ∈ l → x ≤ l.foldl max a := by
  induction l with
  | nil => intro a x hx; simp at hx
  | cons y ys ih =>
    intro a x hx
    rw [List.foldl_cons]
    rcases List.mem_cons.mp hx with rfl | hx
    · exact le_trans (le_max_right a x) (le_foldl_max ys (max a x))
    · exact ih (max a y) x hx

lemma listMaxQ_mem (l : List ℚ) (h : l ≠ []) : listMaxQ l ∈ l := by
  rcases foldl_max_mem l (l.headD 0) with h0 | h0
  · rw [listMaxQ, h0]
    cases l with
    | nil => simp at h
    | cons v vs => simp
  · exact h0

/--
C4 counterexample: the claim fails on the code at concrete inputs.
In the package engine (multibandit/bandit.py) and in multibandit.py
the exploit branch is a deterministic first-argmax: on the fresh
three-arm test fixture all means are 0, arm 1 satisfies the claimed
absolute-tolerance candidate predicate, yet the selection returns arm
0 whatever value the uniform-index oracle takes, so the choice is not
a uniform draw over the candidate set. Moreover, in the legacy script
the candidate set uses math.isclose with RELATIVE tolerance 1e-9: at
averages [1e-9, 0] the code keeps only arm 0 while the claimed
absolute-tolerance set is [0, 1].
-/
theorem C4_counterexample :
    Engine.select_arm (Engine.init testBandits (1/10)) ⟨1/2, 1, 0⟩ = 0
    ∧ Engine.select_arm (Engine.init testBandits (1/10)) ⟨1/2, 2, 0⟩ = 0
    ∧ 1 ∈ specCandidatesOf
        ((Engine.init testBandits (1/10)).bandits.map Bandit.estimated_mean)
    ∧ Lcandidates [⟨1/2, 1000000000, 1⟩, ⟨1/2, 1, 0⟩] = [0]
    ∧ specCandidatesOf
        ([(⟨1/2, 1000000000, 1⟩ : LArm), ⟨1/2, 1, 0⟩].map LArm.avg) = [0, 1] := by
  have hv3 : (Engine.init testBandits (1/10)).bandits.map Bandit.estimated_mean
      = [(0 : ℚ), 0, 0] := rfl
  have hargmax : argmaxFirst [(0 : ℚ), 0, 0] = 0 := by
    simp [argmaxFirst]
  have hm : |(0 : ℚ) - 1/1000000000| = 1/1000000000 := by
    rw [zero_sub, abs_neg, abs_of_pos]
    norm_num
  have hv : ([(⟨1/2, 1000000000, 1⟩ : LArm), ⟨1/2, 1, 0⟩].map LArm.avg)
      = [(1 : ℚ)/1000000000, 0] := by
    simp [LArm.avg]
  have hmax : listMaxQ [(1 : ℚ)/1000000000, 0] = 1/1000000000 := by
    simp only [listMaxQ, List.headD_cons, List.foldl_cons, List.foldl_nil,
      max_self]
    exact max_eq_left (by norm_num)
  have hmax3 : listMaxQ [(0 : ℚ), 0, 0] = 0 := by
    simp [listMaxQ, max_self]
  have hp0 : isclose ((1 : ℚ)/1000000000) (1/1000000000) = true := by
    simp only [isclose, decide_eq_true_eq, sub_self, abs_zero]
    exact le_max_right _ 0
  have hmm : max |(0 : ℚ)| |(1 : ℚ)/1000000000| = 1/1000000000 := by
    rw [abs_zero, abs_of_pos (by norm_num)]
    exact max_eq_right (by norm_num)
  have hp1 : isclose 0 ((1 : ℚ)/1000000000) = false := by
    simp only [isclose, decide_eq_false_iff_not, hm, hmm]
    rw [max_eq_left (by norm_num)]
    norm_num
  have hq0 : (decide (|(0 : ℚ) - 0| ≤ 1/1000000000) : Bool) = true := by
    simp only [decide_eq_true_eq, sub_self, abs_zero]
    norm_num
  have hq1 : (decide (|(1 : ℚ)/1000000000 - 1/1000000000| ≤ 1/1000000000)
      : Bool) = true := by
    simp only [decide_eq_true_eq, sub_self, abs_zero]
    norm_num
  have hq2 : (decide (|(0 : ℚ) - 1/1000000000| ≤ 1/1000000000) : Bool)
      = true := by
    simp only [decide_eq_true_eq, hm, le_refl]
  refine ⟨?_, ?_, ?_, ?_, ?_⟩
  · simp only [Engine.select_arm, Engine.init]
    rw [if_neg (by norm_num : ¬ ((1 : ℚ)/2 < 1/10))]
    exact hargmax
  · simp only [Engine.select_arm, Engine.init]
    rw [if_neg (by norm_num : ¬ ((1 : ℚ)/2 < 1/10))]
    exact hargmax
  · rw [hv3]
    simp only [specCandidatesOf, hmax3]
    rw [show List.range ([(0 : ℚ), 0, 0].length) = [0, 1, 2] from rfl]
    rw [List.filter_cons, List.filter_cons, List.filter_cons, List.filter_nil]
    simp [hq0]
  · simp only [Lcandidates, hv, hmax]
    rw [show List.range ([(⟨1/2, 1000000000, 1⟩ : LArm), ⟨1/2, 1, 0⟩].length)
        = [0, 1] from rfl]
    rw [List.filter_cons, List.filter_cons, List.filter_nil]
    simp only [List.getD_cons_zero, List.getD_cons_succ]
    simp only [hp0, hp1]
    simp
  · rw [hv]
    simp only [specCandidatesOf, hmax]
    rw [show List.range ([(1 : ℚ)/1000000000, 0].length) = [0, 1] from rfl]
    rw [List.filter_cons, List.filter_cons, List.filter_nil]
    simp only [List.getD_cons_zero, List.getD_cons_succ]
    simp only [hq1, hq2]
    simp

/--
C4 amended: in the legacy script src/Multibandit.py the exploit-branch
candidate set is exactly the arms whose average is within RELATIVE
tolerance 1e-9 (math.isclose default) of the maximum average, and the
chosen arm is a uniform draw over exactly that set (the choice always
lands in the set and every candidate is reachable); in
multibandit/bandit.py and multibandit.py the exploit branch instead
deterministically returns the lowest index attaining the maximal
estimated mean, so ties are biased toward the smallest index.
-/
theorem C4_exploit_tie_breaking (arms : List LArm) (r : ℕ) :
    (∀ i : ℕ, i ∈ Lcandidates arms ↔
      i < arms.length ∧
        |(arms.map LArm.avg).getD i 0 - listMaxQ (arms.map LArm.avg)|
          ≤ max ((1/1000000000) *
              max |(arms.map LArm.avg).getD i 0|
                |listMaxQ (arms.map LArm.avg)|) 0)
    ∧ (arms ≠ [] → LchooseExploit arms r ∈ Lcandidates arms)
    ∧ (∀ c ∈ Lcandidates arms, ∃ rr : ℕ, LchooseExploit arms rr = c)
    ∧ (∀ (s : Engine) (d : Draw), s.bandits ≠ [] → s.epsilon ≤ d.explore →
        s.select_arm d < s.bandits.length
        ∧ (∀ j, j < s.bandits.length →
            (s.bandits.map Bandit.estimated_mean).getD j 0
              ≤ (s.bandits.map Bandit.estimated_mean).getD (s.select_arm d) 0)
        ∧ (∀ j, j < s.select_arm d →
            (s.bandits.map Bandit.estimated_mean).getD j 0
              < (s.bandits.map Bandit.estimated_mean).getD (s.select_arm d) 0)) := by
  refine ⟨?_, ?_, ?_, ?_⟩
  · intro i
    simp only [Lcandidates, List.mem_filter, List.mem_range, isclose,
      decide_eq_true_eq]
  · intro h
    have hvne : arms.map LArm.avg ≠ [] := by
      intro hm; exact h (List.map_eq_nil_iff.mp hm)
    have hmem : listMaxQ (arms.map LArm.avg) ∈ arms.map LArm.avg :=
      listMaxQ_mem _ hvne
    obtain ⟨j, hj, hval⟩ := List.getElem_of_mem hmem
    have hjc : j ∈ Lcandidates arms := by
      simp only [Lcandidates, List.mem_filter, List.mem_range, isclose,
        decide_eq_true_eq]
      refine ⟨by simpa using hj, ?_⟩
      rw [List.getD_eq_getElem _ _ hj, hval]
      simp only [sub_self, abs_zero]
      exact le_max_right _ 0
    have hcne : Lcandidates arms ≠ [] := by
      intro hnil; rw [hnil] at hjc; simp at hjc
    have hlen : 0 < (Lcandidates arms).length := List.length_pos.mpr hcne
    simp only [LchooseExploit]
    have hmod : r % (Lcandidates arms).length < (Lcandidates arms).length :=
      Nat.mod_lt _ hlen
    rw [List.getD_eq_getElem _ _ hmod]
    exact List.getElem_mem _
  · intro c hc
    obtain ⟨k, hk, hval⟩ := List.getElem_of_mem hc
    refine ⟨k, ?_⟩
    simp only [LchooseExploit]
    rw [Nat.mod_eq_of_lt hk, List.getD_eq_getElem _ _ hk, hval]
  · intro s d hne hexp
    have hsel : s.select_arm d
        = argmaxFirst (s.bandits.map Bandit.estimated_mean) := by
      unfold Engine.select_arm
      rw [if_neg (not_lt.mpr hexp)]
    have hmne : s.bandits.map Bandit.estimated_mean ≠ [] := by
      intro hm; exact hne (List.map_eq_nil_iff.mp hm)
    refine ⟨?_, ?_, ?_⟩
    · rw [hsel]
      have := argmaxFirst_lt _ hmne
      simpa using this
    · intro j hj
      rw [hsel]
      exact argmaxFirst_le _ 0 j (by simpa using hj)
    · intro j hj
      rw [hsel]
      rw [hsel] at hj
      exact argmaxFirst_least _ 0 j hj

/-- Witness for C4 amended at a single-arm state. -/
theorem C4_witness :
    LchooseExploit [⟨1/2, 2, 1⟩] 0 ∈ Lcandidates [⟨1/2, 2, 1⟩] :=
  (C4_exploit_tie_breaking [⟨1/2, 2, 1⟩] 0).2.1 (by decide)

/-
Embedding of class MultiBandit from src/multibandit.py (the numpy
variant). counts holds the integer pull counts, values the running
mean estimates, rewards the per-arm reward histories.
-/
structure MB where
  n_arms : ℕ
  counts : List ℕ
  values : List ℚ
  rewards : List (List ℚ)
deriving DecidableEq

/- __init__ raises ValueError for n_arms ≤ 0, else allocates zeroed
arrays of length n_arms. -/
def MB.init (n_arms : ℤ) : Except String MB :=
  if n_arms ≤ 0 then .error "Number of arms must be positive"
  else .ok ⟨n_arms.toNat, List.replicate n_arms.toNat 0,
    List.replicate n_arms.toNat 0, List.replicate n_arms.toNat []⟩

/- update: raises ValueError for arm outside [0, n_arms) before any
mutation; otherwise increments the count, appends the reward and sets
values[arm] = ((n-1)/n) * value + (1/n) * reward with the already
incremented count n. -/
def MB.update (s : MB) (arm : ℤ) (reward : ℚ) : Except String MB :=
  if arm < 0 ∨ (s.n_arms : ℤ) ≤ arm then .error "Invalid arm index"
  else
    let a := arm.toNat
    let n : ℕ := s.counts.getD a 0 + 1
    let v := s.values.getD a 0
    .ok { s with
      counts := s.counts.set a n,
      rewards := s.rewards.set a (s.rewards.getD a [] ++ [reward]),
      values := s.values.set a ((((n : ℚ) - 1) / (n : ℚ)) * v
        + (1 / (n : ℚ)) * reward) }

/--
C10: for every bandit state, update with an arm index outside
[0, n_arms) fails with the ValueError before any mutation (the
functional embedding returns the error and no new state), and update
with an arm inside [0, n_arms) always returns a new state and never
raises.
-/
theorem C10_update_range_check (s : MB) (arm : ℤ) (reward : ℚ) :
    ((arm < 0 ∨ (s.n_arms : ℤ) ≤ arm) →
      s.update arm reward = .error "Invalid arm index")
    ∧ (0 ≤ arm → arm < (s.n_arms : ℤ) →
      ∃ s2 : MB, s.update arm reward = .ok s2) := by
  constructor
  · intro h
    simp only [MB.update, if_pos h]
  · intro h1 h2
    have hcond : ¬ (arm < 0 ∨ (s.n_arms : ℤ) ≤ arm) := by omega
    simp only [MB.update]
    rw [if_neg hcond]
    exact ⟨_, rfl⟩

/-- Witness for C10 on a three-arm state with arms 5 and 1. -/
theorem C10_witness :
    MB.update ⟨3, [0, 0, 0], [0, 0, 0], [[], [], []]⟩ 5 1
        = .error "Invalid arm index"
    ∧ ∃ s2 : MB, MB.update ⟨3, [0, 0, 0], [0, 0, 0], [[], [], []]⟩ 1 1
        = .ok s2 :=
  ⟨(C10_update_range_check ⟨3, [0, 0, 0], [0, 0, 0], [[], [], []]⟩ 5 1).1
      (by decide),
    (C10_update_range_check ⟨3, [0, 0, 0], [0, 0, 0], [[], [], []]⟩ 1 1).2
      (by decide) (by decide)⟩

/--
C8: multibandit.py does validate the arm count (ValueError for
n_arms ≤ 0, success otherwise), but the package constructor in
multibandit/bandit.py accepts any epsilon (including 3/2 and -1/10)
and the empty bandits list without raising, although its own tests
test_multibandit_invalid_epsilon and test_multibandit_empty_bandits
and the spec require a ValueError there.
-/
theorem C8_construction_validation :
    MB.init 0 = .error "Number of arms must be positive"
    ∧ MB.init (-3) = .error "Number of arms must be positive"
    ∧ (∃ s : MB, MB.init 2 = .ok s)
    ∧ (Engine.init testBandits (3/2)).epsilon = 3/2
    ∧ (Engine.init testBandits (-1/10)).epsilon = -1/10
    ∧ (Engine.init [] (1/10)).bandits = [] := by
  exact ⟨rfl, rfl, ⟨_, rfl⟩, rfl, rfl, rfl⟩

/- select_arm_thompson_sampling from multibandit.py builds, per arm,
the Beta parameters (alpha + counts, beta + (sum(counts) - counts +
1)) and draws one sample per arm; the draws are supplied by the
oracle function draw (arm index, alpha parameter, beta parameter).
np.argmax then picks the first index attaining the largest sample. -/
def MB.thompsonParams (s : MB) (alpha beta : ℚ) : List (ℚ × ℚ) :=
  let total : ℕ := s.counts.sum
  s.counts.map (fun c : ℕ =>
    (alpha + (c : ℚ), beta + ((total : ℚ) - (c : ℚ) + 1)))

def MB.select_arm_thompson_sampling (s : MB) (alpha beta : ℚ)
    (draw : ℕ → ℚ → ℚ → ℚ) : ℕ :=
  argmaxFirst ((s.thompsonParams alpha beta).enum.map
    (fun p => draw p.1 p.2.1 p.2.2))

/- The Beta parameters the spec sentence behind C5 describes:
alpha = 1 + successes and beta = 1 + failures with successes =
pull_count * estimated_mean and failures = pull_count - successes.
Stated from the spec for comparison with the source definition. -/
def specThompsonParams (s : MB) : List (ℚ × ℚ) :=
  (s.counts.zip s.values).map
    (fun p => (1 + (p.1 : ℚ) * p.2, 1 + ((p.1 : ℚ) - (p.1 : ℚ) * p.2)))

/--
C5 counterexample: on the reachable state with counts [3, 1] and
values [1, 0] (three unit rewards on arm 0, one zero reward on arm 1)
the source draws from Beta(alpha + counts, beta + (sum(counts) -
counts + 1)), giving parameters [(4, 3), (2, 5)] at the default
alpha = beta = 1, while the claimed successes/failures posterior
would be [(4, 1), (1, 2)]; the two parameter lists differ.
-/
theorem C5_counterexample :
    MB.thompsonParams ⟨2, [3, 1], [1, 0], [[1, 1, 1], [0]]⟩ 1 1
        = [(4, 3), (2, 5)]
    ∧ specThompsonParams ⟨2, [3, 1], [1, 0], [[1, 1, 1], [0]]⟩
        = [(4, 1), (1, 2)]
    ∧ MB.thompsonParams ⟨2, [3, 1], [1, 0], [[1, 1, 1], [0]]⟩ 1 1
        ≠ specThompsonParams ⟨2, [3, 1], [1, 0], [[1, 1, 1], [0]]⟩ := by
  have h1 : MB.thompsonParams ⟨2, [3, 1], [1, 0], [[1, 1, 1], [0]]⟩ 1 1
      = [(4, 3), (2, 5)] := by
    simp only [MB.thompsonParams]
    norm_num
  have h2 : specThompsonParams ⟨2, [3, 1], [1, 0], [[1, 1, 1], [0]]⟩
      = [(4, 1), (1, 2)] := by
    simp only [specThompsonParams, List.zip_cons_cons, List.zip_nil_right]
    norm_num
  refine ⟨h1, h2, ?_⟩
  rw [h1, h2]
  intro h
  have := List.head_eq_of_cons_eq h
  simp at this

/--
C5 amended: Thompson selection draws, for arm i, one sample from
Beta(alpha + counts[i], beta + (sum(counts) - counts[i] + 1)) (with
the default alpha = beta = 1 this is Beta(1 + pulls, 2 + total_pulls
- pulls)), and returns the first index attaining the largest drawn
sample: the chosen index is always in range and its drawn sample is
maximal among all arms.
-/
theorem C5_thompson_parameters (s : MB) (alpha beta : ℚ)
    (draw : ℕ → ℚ → ℚ → ℚ) (i : ℕ) (hi : i < s.counts.length)
    (hne : s.counts ≠ []) :
    (s.thompsonParams alpha beta).getD i (0, 0)
        = (alpha + (s.counts.getD i 0 : ℚ),
           beta + ((s.counts.sum : ℚ) - (s.counts.getD i 0 : ℚ) + 1))
    ∧ s.select_arm_thompson_sampling alpha beta draw < s.counts.length
    ∧ (∀ j, j < s.counts.length →
        ((s.thompsonParams alpha beta).enum.map
            (fun p => draw p.1 p.2.1 p.2.2)).getD j 0
          ≤ ((s.thompsonParams alpha beta).enum.map
            (fun p => draw p.1 p.2.1 p.2.2)).getD
              (s.select_arm_thompson_sampling alpha beta draw) 0) := by
  have hplen : (s.thompsonParams alpha beta).length = s.counts.length :=
    List.length_map _ _
  have hdlen : ((s.thompsonParams alpha beta).enum.map
      (fun p => draw p.1 p.2.1 p.2.2)).length = s.counts.length := by
    rw [List.length_map, List.enum_length, hplen]
  have hdne : ((s.thompsonParams alpha beta).enum.map
      (fun p => draw p.1 p.2.1 p.2.2)) ≠ [] := by
    intro hnil
    have := congrArg List.length hnil
    rw [hdlen] at this
    simp at this
    exact hne this
  refine ⟨?_, ?_, ?_⟩
  · exact getD_map (fun c : ℕ => (alpha + (c : ℚ),
      beta + ((s.counts.sum : ℚ) - (c : ℚ) + 1))) s.counts i (0, 0) 0 hi
  · have := argmaxFirst_lt _ hdne
    rw [hdlen] at this
    exact this
  · intro j hj
    exact argmaxFirst_le _ 0 j (by rw [hdlen]; exact hj)

/-- Witness for C5 amended on the counts [3, 1] state. -/
theorem C5_witness :
    MB.select_arm_thompson_sampling ⟨2, [3, 1], [1, 0], [[1, 1, 1], [0]]⟩ 1 1
        (fun _ _ _ => 0) < ([3, 1] : List ℕ).length :=
  (C5_thompson_parameters ⟨2, [3, 1], [1, 0], [[1, 1, 1], [0]]⟩ 1 1
    (fun _ _ _ => 0) 0 (by decide) (by decide)).2.1

/- The Python loop "for arm in range(n): if counts[arm] == 0: return
arm" returns the first index satisfying the predicate. -/
def firstIdxWith {α : Type} (p : α → Bool) : List α → Option ℕ
  | [] => none
  | x :: xs => if p x then some 0 else (firstIdxWith p xs).map (fun j => j + 1)

lemma firstIdxWith_some {α : Type} (p : α → Bool) :
    ∀ (l : List α) (i : ℕ) (d : α), firstIdxWith p l = some i →
      i < l.length ∧ p (l.getD i d) = true
      ∧ (∀ j, j < i → p (l.getD j d) = false) := by
  intro l
  induction l with
  | nil => intro i d h; simp [firstIdxWith] at h
  | cons x xs ih =>
    intro i d h
    simp only [firstIdxWith] at h
    by_cases hp : p x
    · rw [if_pos hp] at h
      have h0 : (0 : ℕ) = i := Option.some.inj h
      subst h0
      exact ⟨by simp, by simpa using hp, by omega⟩
    · rw [if_neg hp] at h
      cases hfx : firstIdxWith p xs with
      | none => rw [hfx] at h; simp at h
      | some k =>
        rw [hfx] at h
        simp only [Option.map_some'] at h
        have hk : k + 1 = i := Option.some.inj h
        subst hk
        obtain ⟨hk1, hk2, hk3⟩ := ih k d hfx
        refine ⟨by simp; omega, by simpa using hk2, ?_⟩
        intro j hj
        match j with
        | 0 =>
          simp only [List.getD_cons_zero]
          rw [Bool.not_eq_true] at hp
          exact hp
        | Nat.succ m =>
          simp only [List.getD_cons_succ]
          exact hk3 m (by omega)

lemma firstIdxWith_none {α : Type} (p : α → Bool) :
    ∀ l : List α, firstIdxWith p l = none → ∀ x ∈ l, p x = false := by
  intro l
  induction l with
  | nil => intro _ x hx; simp at hx
  | cons y ys ih =>
    intro h x hx
    simp only [firstIdxWith] at h
    by_cases hp : p y
    · rw [if_pos hp] at h; simp at h
    · rw [if_neg hp] at h
      rcases List.mem_cons.mp hx with rfl | hx2
      · rw [Bool.not_eq_true] at hp; exact hp
      · cases hfx : firstIdxWith p ys with
        | none => exact ih hfx x hx2
        | some k => rw [hfx] at h; simp at h

lemma count_zero_eq_sum (l : List ℕ) :
    l.count 0 = (l.map (fun x => if x = 0 then 1 else 0)).sum := by
  induction l with
  | nil => rfl
  | cons x xs ih =>
    rw [List.count_cons, List.map_cons, List.sum_cons, ih]
    by_cases hx : x = 0
    · subst hx
      simp [Nat.add_comm]
    · have h0 : ((0 : ℕ) == x) = false :=
        beq_eq_false_iff_ne.mpr (fun h => hx h.symm)
      have h1 : ((x : ℕ) == 0) = false := beq_eq_false_iff_ne.mpr hx
      simp [h0, h1, hx]

/- select_arm_ucb from multibandit.py: any arm with zero count is
returned immediately (the Python loop returns the lowest such index);
otherwise the arm maximising values + c * sqrt(log(t + 1) / (counts +
1e-5)) is chosen (np.argmax: first index on ties). -/
noncomputable def MB.ucbValues (s : MB) (t : ℕ) (c : ℚ) : List ℝ :=
  (s.values.zip s.counts).map
    (fun p => (p.1 : ℝ) + (c : ℝ) *
      Real.sqrt (Real.log ((t : ℝ) + 1) / ((p.2 : ℝ) + 1/100000)))

noncomputable def MB.select_arm_ucb (s : MB) (t : ℕ) (c : ℚ) : ℕ :=
  (firstIdxWith (fun n => n == 0) s.counts).getD
    (argmaxFirst (s.ucbValues t c))

lemma MB.select_arm_ucb_lt (s : MB) (t : ℕ) (c : ℚ) (K : ℕ) (hK : 1 ≤ K)
    (hc : s.counts.length = K) (hv : s.values.length = K) :
    s.select_arm_ucb t c < K := by
  unfold MB.select_arm_ucb
  cases hf : firstIdxWith (fun n => n == 0) s.counts with
  | some i =>
    rw [Option.getD_some]
    have := (firstIdxWith_some (fun n => n == 0) s.counts i 0 hf).1
    omega
  | none =>
    rw [Option.getD_none]
    have hlen : (s.ucbValues t c).length = K := by
      unfold MB.ucbValues
      rw [List.length_map, List.length_zip, hc, hv]
      omega
    have hne : s.ucbValues t c ≠ [] := by
      intro hnil
      have := congrArg List.length hnil
      rw [hlen] at this
      simp at this
      omega
    have := argmaxFirst_lt _ hne
    omega

lemma ucb_step (s : MB) (K t : ℕ) (c : ℚ) (r : ℚ) (hK : 1 ≤ K)
    (hn : s.n_arms = K) (hc : s.counts.length = K)
    (hv : s.values.length = K) (hr : s.rewards.length = K) :
    ∃ s2, s.update ((s.select_arm_ucb t c : ℕ) : ℤ) r = .ok s2
      ∧ s2.n_arms = K ∧ s2.counts.length = K ∧ s2.values.length = K
      ∧ s2.rewards.length = K
      ∧ s2.counts.count 0 ≤ s.counts.count 0 - 1 := by
  have harm : s.select_arm_ucb t c < K := MB.select_arm_ucb_lt s t c K hK hc hv
  set a := s.select_arm_ucb t c with hadef
  have hcond : ¬ (((a : ℕ) : ℤ) < 0 ∨ (s.n_arms : ℤ) ≤ ((a : ℕ) : ℤ)) := by
    rw [hn]
    omega
  have htoNat : (((a : ℕ) : ℤ)).toNat = a := Int.toNat_natCast a
  have ha : a < s.counts.length := by omega
  refine ⟨{ s with
      counts := s.counts.set a (s.counts.getD a 0 + 1),
      rewards := s.rewards.set a (s.rewards.getD a [] ++ [r]),
      values := s.values.set a
        ((((s.counts.getD a 0 + 1 : ℕ) : ℚ) - 1)
            / ((s.counts.getD a 0 + 1 : ℕ) : ℚ) * (s.values.getD a 0)
          + (1 / ((s.counts.getD a 0 + 1 : ℕ) : ℚ)) * r) }, ?_, ?_, ?_, ?_, ?_, ?_⟩
  · simp only [MB.update]
    rw [if_neg hcond, htoNat]
  · exact hn
  · rw [List.length_set]; exact hc
  · rw [List.length_set]; exact hv
  · rw [List.length_set]; exact hr
  · show (s.counts.set a (s.counts.getD a 0 + 1)).count 0
        ≤ s.counts.count 0 - 1
    have hindic := sum_map_set (fun x : ℕ => if x = 0 then 1 else 0)
        s.counts a (s.counts.getD a 0 + 1) 0 ha
    dsimp only at hindic
    have e2 : (if s.counts.getD a 0 + 1 = 0 then (1 : ℕ) else 0) = 0 := by
      simp
    rw [count_zero_eq_sum, count_zero_eq_sum]
    cases hf : firstIdxWith (fun n => n == 0) s.counts with
    | some i =>
      have hai : a = i := by
        rw [hadef]
        unfold MB.select_arm_ucb
        rw [hf, Option.getD_some]
      have hprops := firstIdxWith_some (fun n => n == 0) s.counts i 0 hf
      have hgz : s.counts.getD a 0 = 0 := by
        rw [hai]
        exact eq_of_beq hprops.2.1
      have e1 : (if s.counts.getD a 0 = 0 then (1 : ℕ) else 0) = 1 := by
        rw [hgz]
        simp
      omega
    | none =>
      have hzero : s.counts.count 0 = 0 := by
        rw [List.count_eq_zero]
        intro hmem
        have := firstIdxWith_none (fun n => n == 0) s.counts hf 0 hmem
        simp at this
      rw [count_zero_eq_sum] at hzero
      omega

/- simulate_bandit from multibandit.py, specialised to the ucb
strategy: at step t the UCB selector chooses the arm, the (normal)
reward draw is supplied by the oracle rew, and the bandit is updated.
The loop counter t is the first argument, the remaining step count
the second. -/
noncomputable def simUCBSteps (c : ℚ) (rew : ℕ → ℚ) :
    ℕ → ℕ → MB → Except String MB
  | _, 0, s => .ok s
  | t, k + 1, s =>
    match s.update ((s.select_arm_ucb t c : ℕ) : ℤ) (rew t) with
    | .error e => .error e
    | .ok s2 => simUCBSteps c rew (t + 1) k s2

noncomputable def simulate_bandit_ucb (n_arms : ℤ) (steps : ℕ) (c : ℚ)
    (rew : ℕ → ℚ) : Except String MB :=
  (MB.init n_arms).bind (fun s => simUCBSteps c rew 0 steps s)

lemma simUCB_invariant (c : ℚ) (rew : ℕ → ℚ) (K : ℕ) (hK : 1 ≤ K) :
    ∀ (k t : ℕ) (s : MB), s.n_arms = K → s.counts.length = K →
      s.values.length = K → s.rewards.length = K →
      ∃ s2, simUCBSteps c rew t k s = .ok s2
        ∧ s2.n_arms = K ∧ s2.counts.length = K ∧ s2.values.length = K
        ∧ s2.rewards.length = K
        ∧ s2.counts.count 0 ≤ s.counts.count 0 - k := by
  intro k
  induction k with
  | zero =>
    intro t s h1 h2 h3 h4
    exact ⟨s, rfl, h1, h2, h3, h4, by omega⟩
  | succ k ih =>
    intro t s h1 h2 h3 h4
    obtain ⟨s1, hupd, g1, g2, g3, g4, gz⟩ :=
      ucb_step s K t c (rew t) hK h1 h2 h3 h4
    obtain ⟨s2, hrun, w1, w2, w3, w4, wz⟩ := ih (t + 1) s1 g1 g2 g3 g4
    refine ⟨s2, ?_, w1, w2, w3, w4, by omega⟩
    simp only [simUCBSteps]
    rw [hupd]
    exact hrun

/--
C6: the UCB selector returns the lowest-indexed never-pulled arm
immediately whenever one exists, and a UCB-driven simulation of at
least K steps on K arms ends with every arm pulled at least once.
-/
theorem C6_ucb_forced_exploration (K steps : ℕ) (hK : 1 ≤ K)
    (hs : K ≤ steps) (c : ℚ) (rew : ℕ → ℚ) :
    (∀ (s : MB) (t i : ℕ),
        firstIdxWith (fun n => n == 0) s.counts = some i →
          s.select_arm_ucb t c = i ∧ s.counts.getD i 0 = 0
          ∧ ∀ j, j < i → s.counts.getD j 0 ≠ 0)
    ∧ ∃ s2, simulate_bandit_ucb (K : ℤ) steps c rew = .ok s2
        ∧ s2.counts.length = K ∧ ∀ i, i < K → 1 ≤ s2.counts.getD i 0 := by
  constructor
  · intro s t i hf
    have hprops := firstIdxWith_some (fun n => n == 0) s.counts i 0 hf
    refine ⟨?_, eq_of_beq hprops.2.1, ?_⟩
    · unfold MB.select_arm_ucb
      rw [hf, Option.getD_some]
    · intro j hj
      have := hprops.2.2 j hj
      simp only [beq_eq_false_iff_ne, ne_eq] at this
      exact this
  · have hinit : MB.init (K : ℤ)
        = .ok ⟨K, List.replicate K 0, List.replicate K 0,
            List.replicate K []⟩ := by
      simp only [MB.init]
      rw [if_neg (by omega : ¬ ((K : ℤ) ≤ 0))]
      rw [Int.toNat_natCast]
    obtain ⟨s2, hrun, w1, w2, w3, w4, wz⟩ :=
      simUCB_invariant c rew K hK steps 0
        ⟨K, List.replicate K 0, List.replicate K 0, List.replicate K []⟩
        rfl (by simp) (by simp) (by simp)
    refine ⟨s2, ?_, w2, ?_⟩
    · simp only [simulate_bandit_ucb, hinit, Except.bind]
      exact hrun
    · intro i hi
      have hrep : (List.replicate K (0 : ℕ)).count 0 = K := by
        simp
      have hz0 : s2.counts.count 0 = 0 := by
        simp only [hrep] at wz
        omega
      have hnotmem : (0 : ℕ) ∉ s2.counts := List.count_eq_zero.mp hz0
      have hlen : i < s2.counts.length := by omega
      have hgd : s2.counts.getD i 0 ∈ s2.counts := by
        rw [List.getD_eq_getElem _ _ hlen]
        exact List.getElem_mem _
      by_contra hlt
      push_neg at hlt
      have hzero : s2.counts.getD i 0 = 0 := by omega
      rw [hzero] at hgd
      exact hnotmem hgd

/-- Witness for C6 with two arms, two steps and a constant reward. -/
theorem C6_witness :
    ∃ s2, simulate_bandit_ucb ((2 : ℕ) : ℤ) 2 2 (fun _ => 1) = .ok s2
        ∧ s2.counts.length = 2 ∧ ∀ i, i < 2 → 1 ≤ s2.counts.getD i 0 :=
  (C6_ucb_forced_exploration 2 2 (by decide) (by decide) 2 (fun _ => 1)).2

/-
Embedding of src/ci_utils.py. sampleStdev is the sample standard
deviation computed by statistics.stdev. The Student t quantile
scipy.stats.t.ppf is an external library routine, modelled by the
abstract parameter tppf (degrees of freedom, quantile); the flag
haveScipy is the module-level _HAVE_SCIPY switch set by the import
attempt.
-/
noncomputable def sampleStdev (vals : List ℝ) : ℝ :=
  let n := vals.length
  let m := vals.sum / (n : ℝ)
  Real.sqrt (((vals.map (fun x => (x - m) ^ 2)).sum) / ((n : ℝ) - 1))

noncomputable def ci_halfwidth (haveScipy : Bool) (tppf : ℕ → ℝ → ℝ)
    (vals : List ℝ) (conf : ℝ) : ℝ :=
  let n := vals.length
  if n ≤ 1 then 0
  else
    let s := sampleStdev vals
    let se := s / Real.sqrt (n : ℝ)
    let alpha := 1 - conf
    let tcrit := if haveScipy then tppf (n - 1) (1 - alpha / 2) else 1.96
    tcrit * se

/--
C2: ci_halfwidth returns 0 whenever the list has at most one element
(in particular for the empty list and any singleton), and for n ≥ 2
returns critical_value * s / sqrt(n) where s is the sample standard
deviation, with the critical value being the Student t quantile at
1 - (1 - conf)/2 with n - 1 degrees of freedom when scipy is
available and the constant 1.96 (independent of the requested
confidence) otherwise.
-/
theorem C2_ci_halfwidth_spec (haveScipy : Bool) (tppf : ℕ → ℝ → ℝ)
    (vals : List ℝ) (conf conf2 : ℝ) (x : ℝ) :
    (vals.length ≤ 1 → ci_halfwidth haveScipy tppf vals conf = 0)
    ∧ ci_halfwidth haveScipy tppf [] conf = 0
    ∧ ci_halfwidth haveScipy tppf [x] conf = 0
    ∧ (2 ≤ vals.length →
        ci_halfwidth haveScipy tppf vals conf
          = (if haveScipy then tppf (vals.length - 1) (1 - (1 - conf) / 2)
              else 1.96) * sampleStdev vals / Real.sqrt (vals.length : ℝ))
    ∧ (haveScipy = false →
        ci_halfwidth haveScipy tppf vals conf
          = ci_halfwidth haveScipy tppf vals conf2) := by
  refine ⟨?_, ?_, ?_, ?_, ?_⟩
  · intro h
    simp only [ci_halfwidth]
    rw [if_pos h]
  · simp [ci_halfwidth]
  · simp [ci_halfwidth]
  · intro h
    simp only [ci_halfwidth]
    rw [if_neg (by omega)]
    rw [mul_div_assoc]
  · intro h
    subst h
    simp [ci_halfwidth]

/-- Witness for C2 on the two-element list [0, 1]. -/
theorem C2_witness :
    ci_halfwidth false (fun _ _ => 0) [] (95/100) = 0
    ∧ ci_halfwidth false (fun _ _ => 0) [(7 : ℝ)] (95/100) = 0
    ∧ ci_halfwidth false (fun _ _ => 0) [(0 : ℝ), 1] (95/100)
        = (if false then (fun _ _ => (0 : ℝ)) (([(0 : ℝ), 1]).length - 1)
              (1 - (1 - 95/100) / 2) else 1.96)
            * sampleStdev [(0 : ℝ), 1]
            / Real.sqrt (([(0 : ℝ), 1]).length : ℝ) := by
  have h := C2_ci_halfwidth_spec false (fun _ _ => 0) [(0 : ℝ), 1]
      (95/100) (1/2) 7
  exact ⟨h.2.1, h.2.2.1, h.2.2.2.1 (by simp)⟩

/-
Embedding of the aggregation in run_experiment from
src/experiment_ar.py: the raw trial outcomes per setting (the
accumulated rewards of the repeated MultiBandit runs) are supplied as
the oracle list allVals, one list per swept time value; the
per-setting mean and ci_halfwidth are computed and both are
normalised by the time horizon. plot_and_save then classifies a
setting as converged exactly when its normalised half-width is at
most the threshold.
-/
noncomputable def listMean (l : List ℝ) : ℝ := l.sum / (l.length : ℝ)

noncomputable def run_experiment (haveScipy : Bool) (tppf : ℕ → ℝ → ℝ)
    (times : List ℝ) (allVals : List (List ℝ)) (conf : ℝ) :
    List ℝ × List ℝ :=
  let means := allVals.map listMean
  let cis := allVals.map (fun v => ci_halfwidth haveScipy tppf v conf)
  (List.zipWith (fun m t => m / t) means times,
   List.zipWith (fun cv t => cv / t) cis times)

def converged (ciNorm threshold : ℝ) : Prop := ciNorm ≤ threshold

lemma getD_zipWith {α β γ : Type} (f : α → β → γ) (l1 : List α)
    (l2 : List β) (i : ℕ) (d : γ) (d1 : α) (d2 : β)
    (h1 : i < l1.length) (h2 : i < l2.length) :
    (List.zipWith f l1 l2).getD i d = f (l1.getD i d1) (l2.getD i d2) := by
  have hz : i < (List.zipWith f l1 l2).length := by
    rw [List.length_zipWith]
    omega
  rw [List.getD_eq_getElem _ _ hz, List.getD_eq_getElem _ _ h1,
    List.getD_eq_getElem _ _ h2, List.getElem_zipWith]

/--
C9: for each swept setting, the reported per-setting value is
mean(outcomes) / T, the reported uncertainty is
ci_halfwidth(outcomes, conf) / T, and the setting is classified as
converged exactly when that normalised half-width is at most the
threshold.
-/
theorem C9_sweep_aggregation (haveScipy : Bool) (tppf : ℕ → ℝ → ℝ)
    (times : List ℝ) (allVals : List (List ℝ)) (conf thr : ℝ) (i : ℕ)
    (h1 : i < times.length) (h2 : i < allVals.length) :
    (run_experiment haveScipy tppf times allVals conf).1.getD i 0
        = listMean (allVals.getD i []) / times.getD i 0
    ∧ (run_experiment haveScipy tppf times allVals conf).2.getD i 0
        = ci_halfwidth haveScipy tppf (allVals.getD i []) conf
            / times.getD i 0
    ∧ (converged
          ((run_experiment haveScipy tppf times allVals conf).2.getD i 0) thr
        ↔ ci_halfwidth haveScipy tppf (allVals.getD i []) conf
            / times.getD i 0 ≤ thr) := by
  have hci : (run_experiment haveScipy tppf times allVals conf).2.getD i 0
      = ci_halfwidth haveScipy tppf (allVals.getD i []) conf
          / times.getD i 0 := by
    show (List.zipWith (fun cv t => cv / t)
        (allVals.map (fun v => ci_halfwidth haveScipy tppf v conf))
        times).getD i 0 = _
    rw [getD_zipWith _ _ _ i 0 0 0 (by rw [List.length_map]; omega) h1]
    rw [getD_map (fun v => ci_halfwidth haveScipy tppf v conf) allVals i 0 [] h2]
  refine ⟨?_, hci, ?_⟩
  · show (List.zipWith (fun m t => m / t)
        (allVals.map listMean) times).getD i 0 = _
    rw [getD_zipWith _ _ _ i 0 0 0 (by rw [List.length_map]; omega) h1]
    rw [getD_map listMean allVals i 0 [] h2]
  · unfold converged
    rw [hci]

/-- Witness for C9 with a single setting of horizon 2. -/
theorem C9_witness :
    (run_experiment false (fun _ _ => 0) [2] [[1, 3]] (95/100)).1.getD 0 0
        = listMean (([[(1 : ℝ), 3]]).getD 0 []) / ([(2 : ℝ)]).getD 0 0 :=
  (C9_sweep_aggregation false (fun _ _ => 0) [2] [[1, 3]] (95/100) (1/100) 0
    (by simp) (by simp)).1
